import Mathlib

/-!
Shallow embedding of `src/src/sampling_data/sampling_egd_cxr_enhanced.py`
(class `EnhancedEGDCXRSampler`), the enhanced EGD-CXR dataset sampler.

CSV tables are modelled as Lean lists of records; files that may be absent
on disk are modelled as `Option` values (`none` = the file or directory does
not exist).  Pandas `DataFrame.sample(n=..., random_state=...)` draws `n`
distinct rows using a generator seeded either by the explicit
`random_state` or, when that is omitted, by the ambient global generator
state; this is modelled by a deterministic seeded shuffle followed by
`take`.  Code paths that raise Python exceptions are modelled with
`Except String`.
-/

set_option maxRecDepth 8000

namespace EGD

/-- Step function of a linear congruential generator, standing in for the
seeded pseudo-random number generator behind pandas `DataFrame.sample`. -/
def lcg (s : Nat) : Nat := (1103515245 * s + 12345) % 2147483648

/-- Fuel-indexed deterministic shuffle: repeatedly pick the element at a
seed-derived index and recurse on the remaining list.  With fuel at least
the length of the list this produces a permutation of the input. -/
def shuffleGo : Nat → Nat → List α → List α
  | 0, _, l => l
  | _ + 1, _, [] => []
  | fuel + 1, s, a :: as =>
      (a :: as).get ⟨s % (as.length + 1), Nat.mod_lt _ (Nat.succ_pos _)⟩ ::
        shuffleGo fuel (lcg s) ((a :: as).eraseIdx (s % (as.length + 1)))

/-- Seeded permutation of a list. -/
def shuffle (s : Nat) (l : List α) : List α := shuffleGo l.length s l

/-- Model of pandas `df.sample(n=n, random_state=rs)`: draw `n` distinct
rows (without replacement).  When `rs` is `none` pandas falls back to the
ambient global generator state, modelled by `rng`; every call in the
sampler passes `random_state=42`, i.e. `rs = some 42`. -/
def pdSample (rng : Nat) (rs : Option Nat) (n : Nat) (l : List α) : List α :=
  (shuffle (rs.getD rng) l).take n

/-- Fuel-indexed splitting of a list into consecutive chunks of size `n`
(the last chunk may be shorter), modelling `pd.read_csv(..., chunksize=n)`. -/
def chunksOfGo : Nat → Nat → List α → List (List α)
  | 0, _, _ => []
  | _ + 1, _, [] => []
  | fuel + 1, n, a :: as => (a :: as).take n :: chunksOfGo fuel n ((a :: as).drop n)

/-- Split a list into consecutive chunks of size `n`. -/
def chunksOf (n : Nat) (l : List α) : List (List α) := chunksOfGo l.length n l

/-- One row of `master_sheet.csv`: the unique case identifier, the
demographic columns used by the reporting code, and the binary
clinical-finding columns (`flags`, keyed by column name, as 0/1 values).
Columns other than these are never inspected by the sampler. -/
structure MasterRow where
  dicom_id : String
  gender : String
  anchor_age : Nat
  flags : List (String × Nat)
deriving DecidableEq

/-- One row of `eye_gaze.csv`.  The sampler only ever inspects the
`DICOM_ID` column; the remaining numeric columns are abstracted into an
opaque payload carried along unchanged. -/
structure GazeRow where
  dicom_id : String
  payload : Nat
deriving DecidableEq

/-- One row of `fixations.csv`; as for `GazeRow`, only `DICOM_ID` is
inspected and the remaining columns are an opaque payload. -/
structure FixRow where
  dicom_id : String
  payload : Nat
deriving DecidableEq

/-- One row of `bounding_boxes.csv`: case identifier, region name, and the
coordinate columns abstracted into an opaque payload. -/
structure BBoxRow where
  dicom_id : String
  bbox_name : String
  payload : Nat
deriving DecidableEq

/-- Value of the binary clinical-finding column `c` in a master-sheet row
(0 when the column is absent from the row). -/
def flagVal (r : MasterRow) (c : String) : Nat := (r.flags.lookup c).getD 0

/-- The primary clinical conditions, `self.primary_conditions`. -/
def primary_conditions : List String := ["Normal", "CHF", "pneumonia"]

/-- The secondary clinical conditions, `self.secondary_conditions`. -/
def secondary_conditions : List String :=
  ["consolidation", "enlarged_cardiac_silhouette",
   "pleural_effusion_or_thickening", "pulmonary_edema__hazy_opacity"]

/-- Model of `validate_data_completeness`: a case identifier is kept only
when the per-case audio-transcript directory entry exists, the gaze file
exists and the identifier occurs among the first 1000 gaze rows, and the
fixations file exists and the identifier occurs among the first 1000
fixation rows (the source reads each file with `nrows=1000`).  A missing
audio directory yields the empty set of directory entries; missing files
leave the corresponding flag false.  No input makes this raise. -/
def validate_data_completeness (aud : Option (List String))
    (gaze : Option (List GazeRow)) (fix : Option (List FixRow))
    (dicom_ids : List String) : List String :=
  let available_audio := aud.getD []
  dicom_ids.filter (fun d =>
    available_audio.contains d &&
    (match gaze with
     | some g => (g.take 1000).any (fun r => r.dicom_id == d)
     | none => false) &&
    (match fix with
     | some f => (f.take 1000).any (fun r => r.dicom_id == d)
     | none => false))

/-- The rows of the master sheet whose identifier passed
`validate_data_completeness`; this is `df_complete` in
`create_diverse_sample`. -/
def df_complete_of (aud : Option (List String)) (gaze : Option (List GazeRow))
    (fix : Option (List FixRow)) (df : List MasterRow) : List MasterRow :=
  let complete := validate_data_completeness aud gaze fix (df.map (·.dicom_id))
  df.filter (fun r => complete.contains r.dicom_id)

/-- Accumulator of the stratified sampling loops: the list of sampled
blocks (`samples`) together with the set of already used identifiers
(`used_ids`, kept as a list). -/
abbrev SampAcc := List (List MasterRow) × List String

/-- One iteration of the per-condition sampling loops of
`create_diverse_sample` (steps 1 and 3): when the condition column exists,
take the rows positive for the condition and not yet used, and if any
remain draw `min quota len` of them with `random_state=42`. -/
def condStep (rng : Nat) (quota : Nat) (cols : List String)
    (df_complete : List MasterRow) (acc : SampAcc) (condition : String) : SampAcc :=
  if cols.contains condition then
    let condition_data := (df_complete.filter (fun r => flagVal r condition == 1)).filter
        (fun r => !acc.2.contains r.dicom_id)
    if 0 < condition_data.length then
      let n_sample := min quota condition_data.length
      let condition_sample := pdSample rng (some 42) n_sample condition_data
      (acc.1 ++ [condition_sample], acc.2 ++ condition_sample.map (·.dicom_id))
    else acc
  else acc

/-- Sum of the values of the available condition columns of a row; this is
the `complexity` (equivalently `condition_count`) computed by the source. -/
def conditionCount (cols : List String) (r : MasterRow) : Nat :=
  (((primary_conditions ++ secondary_conditions).filter
      (fun c => cols.contains c)).map (flagVal r)).sum

/-- Step 2 of `create_diverse_sample`: from the not-yet-used rows, draw up
to 8 rows whose condition complexity is at least 2. -/
def complexStep (rng : Nat) (cols : List String) (df_complete : List MasterRow)
    (acc : SampAcc) : SampAcc :=
  let multi := df_complete.filter (fun r => !acc.2.contains r.dicom_id)
  if 0 < multi.length then
    let complex_cases := multi.filter (fun r => decide (2 ≤ conditionCount cols r))
    if 0 < complex_cases.length then
      let n_complex := min 8 complex_cases.length
      let complex_sample := pdSample rng (some 42) n_complex complex_cases
      (acc.1 ++ [complex_sample], acc.2 ++ complex_sample.map (·.dicom_id))
    else acc
  else acc

/-- Step 4 of `create_diverse_sample`: fill the shortfall up to
`n_samples` with an unconstrained draw from the not-yet-used rows. -/
def fillStep (rng : Nat) (n_samples : Nat) (df_complete : List MasterRow)
    (acc : SampAcc) : SampAcc :=
  let total := (acc.1.map List.length).sum
  let remaining := n_samples - total
  if 0 < remaining then
    let remaining_data := df_complete.filter (fun r => !acc.2.contains r.dicom_id)
    if 0 < remaining_data.length then
      let remaining_sample := pdSample rng (some 42)
          (min remaining remaining_data.length) remaining_data
      (acc.1 ++ [remaining_sample], acc.2 ++ remaining_sample.map (·.dicom_id))
    else acc
  else acc

/-- The accumulator produced by running steps 1 to 4 of
`create_diverse_sample` in order: the primary-condition loop (quota 8),
the complex-case step, the secondary-condition loop (quota 3) and the
fill step. -/
def sampleAcc (rng : Nat) (cols : List String) (dfc : List MasterRow)
    (n_samples : Nat) : SampAcc :=
  fillStep rng n_samples dfc
    (secondary_conditions.foldl (condStep rng 3 cols dfc)
      (complexStep rng cols dfc
        (primary_conditions.foldl (condStep rng 8 cols dfc) ([], []))))

/-- Model of `create_diverse_sample`: validate completeness, run the four
sampling steps, concatenate the blocks (falling back to a plain draw from
the validated pool when no step produced anything), and finally downsample
to `n_samples` when the concatenation is too large.  Every random draw
passes `random_state=42`; `rng` is the ambient global generator state that
would be consulted only if some draw omitted `random_state`. -/
def create_diverse_sample (rng : Nat) (cols : List String) (df : List MasterRow)
    (aud : Option (List String)) (gaze : Option (List GazeRow))
    (fix : Option (List FixRow)) (n_samples : Nat) : List MasterRow :=
  let dfc := df_complete_of aud gaze fix df
  let acc4 := sampleAcc rng cols dfc n_samples
  let final_sample := if acc4.1.isEmpty
    then pdSample rng (some 42) (min n_samples dfc.length) dfc
    else acc4.1.flatten
  if n_samples < final_sample.length then pdSample rng (some 42) n_samples final_sample
  else final_sample

/-- Chunked `isin` filtering used by `sample_gaze_data`: split the table
into chunks of 10000 rows, filter each chunk to the rows whose identifier
is in the selected set, keep only the nonempty filtered chunks, and
concatenate them in arrival order (`pd.concat`). -/
def chunked_isin_filter (key : α → String) (ids : List String) (table : List α) : List α :=
  (((chunksOf 10000 table).map
      (List.filter (fun r => ids.contains (key r)))).filter
    (fun c => decide (0 < c.length))).flatten

/-- Model of `sample_gaze_data`.  When the gaze file is missing its block
is skipped, but the local variable `chunk_size` is assigned only inside
that block, so a present fixations file then raises a `NameError`; when
the fixations file is missing that block is skipped and zero fixation rows
are produced. -/
def sample_gaze_data (gaze : Option (List GazeRow)) (fix : Option (List FixRow))
    (sample_dicom_ids : List String) : Except String (List GazeRow × List FixRow) :=
  match gaze, fix with
  | none, none => .ok ([], [])
  | none, some _ => .error "NameError: name chunk_size is not defined"
  | some g, none => .ok (chunked_isin_filter GazeRow.dicom_id sample_dicom_ids g, [])
  | some g, some f =>
      .ok (chunked_isin_filter GazeRow.dicom_id sample_dicom_ids g,
           chunked_isin_filter FixRow.dicom_id sample_dicom_ids f)

/-- Model of `sample_bounding_boxes`: a missing bounding-box file is only
logged (`logger.warning`) and yields zero records; otherwise the whole
table is filtered to the selected identifiers in one pass. -/
def sample_bounding_boxes (bbox : Option (List BBoxRow))
    (sample_dicom_ids : List String) : List BBoxRow :=
  match bbox with
  | none => []
  | some b => b.filter (fun r => sample_dicom_ids.contains r.dicom_id)

/-- Model of `copy_audio_transcripts`: the number of sampled cases whose
per-case audio directory exists (a missing directory is only logged). -/
def copy_audio_transcripts (aud : Option (List String))
    (sample_df : List MasterRow) : Nat :=
  sample_df.countP (fun r => (aud.getD []).contains r.dicom_id)

/-- The structured summary produced by `create_comprehensive_metadata`.
The completeness rate is a percentage computed by a true division
`audio_count / len(sample_df) * 100`; it is represented exactly as the
numerator/denominator pair `(audio_count * 100, len(sample_df))`. -/
structure Metadata where
  total_studies : Nat
  condition_stats : List (String × Nat)
  gender_values : List String
  age_values : List Nat
  complexity_values : List Nat
  audio_transcripts : Nat
  gaze_records : Nat
  fixation_records : Nat
  bounding_box_records : Nat
  completeness_rate_pct : Nat × Nat
  sampled_studies : List String
deriving DecidableEq

/-- Model of `create_comprehensive_metadata`.  The source computes
`audio_count/len(sample_df)*100` while building the metadata dictionary,
which raises `ZeroDivisionError` whenever the sample is empty; every other
aggregation in the function is total. -/
def create_comprehensive_metadata (cols : List String) (sample_df : List MasterRow)
    (gaze_records fixation_records bbox_records audio_count : Nat) :
    Except String Metadata :=
  if sample_df.length = 0 then .error "ZeroDivisionError: division by zero"
  else .ok {
    total_studies := sample_df.length
    condition_stats := ((primary_conditions ++ secondary_conditions).filter
        (fun c => cols.contains c)).map
        (fun c => (c, (sample_df.map (fun r => flagVal r c)).sum))
    gender_values := sample_df.map (·.gender)
    age_values := sample_df.map (·.anchor_age)
    complexity_values := sample_df.map (conditionCount cols)
    audio_transcripts := audio_count
    gaze_records := gaze_records
    fixation_records := fixation_records
    bounding_box_records := bbox_records
    completeness_rate_pct := (audio_count * 100, sample_df.length)
    sampled_studies := sample_df.map (·.dicom_id) }

/-- Everything `run_enhanced_sampling` hands back (plus the record counts
it reports). -/
structure RunOutput where
  sample : List MasterRow
  audio_count : Nat
  gaze_records : Nat
  fixation_records : Nat
  bounding_box_records : Nat
  metadata : Metadata
deriving DecidableEq

/-- Model of `load_master_sheet`: a missing master sheet raises
`FileNotFoundError`; otherwise the column list and rows are returned. -/
def load_master_sheet (master : Option (List String × List MasterRow)) :
    Except String (List String × List MasterRow) :=
  match master with
  | none => .error "FileNotFoundError: Master sheet not found"
  | some m => .ok m

/-- Model of `run_enhanced_sampling`: load the master sheet, build the
diverse sample, copy audio transcripts, extract the gaze/fixation and
bounding-box subsets, and build the metadata summary.  Any exception
raised by a step aborts the run with that error. -/
def run_enhanced_sampling (rng : Nat) (master : Option (List String × List MasterRow))
    (aud : Option (List String)) (gaze : Option (List GazeRow))
    (fix : Option (List FixRow)) (bbox : Option (List BBoxRow))
    (n_samples : Nat) : Except String RunOutput := do
  let (cols, df) ← load_master_sheet master
  let sample_df := create_diverse_sample rng cols df aud gaze fix n_samples
  let audio_count := copy_audio_transcripts aud sample_df
  let (gz, fx) ← sample_gaze_data gaze fix (sample_df.map (·.dicom_id))
  let bb := sample_bounding_boxes bbox (sample_df.map (·.dicom_id))
  let md ← create_comprehensive_metadata cols sample_df gz.length fx.length
      bb.length audio_count
  return ⟨sample_df, audio_count, gz.length, fx.length, bb.length, md⟩

/-- The rows selected so far by a sampling accumulator (concatenation of
its blocks). -/
def accRows (acc : SampAcc) : List MasterRow := acc.1.flatten

/-- Invariant maintained by every sampling step of `create_diverse_sample`
over the validated pool `dfc`: the used-identifier set is exactly the
identifiers of the rows selected so far, every selected row comes from the
pool, the selected identifiers are pair-wise distinct, and every appended
block is nonempty. -/
structure AccInv (dfc : List MasterRow) (acc : SampAcc) : Prop where
  used_eq : acc.2 = (accRows acc).map (·.dicom_id)
  sub : ∀ r ∈ accRows acc, r ∈ dfc
  nodup : ((accRows acc).map (·.dicom_id)).Nodup
  blocks_ne : ∀ b ∈ acc.1, b ≠ []

/-- Concrete nine-case index in which every case is positive for `Normal`
and for nothing else; used to exercise the fill step of the sampler. -/
def nineNormalDf : List MasterRow :=
  [⟨"c1", "F", 60, [("Normal", 1)]⟩, ⟨"c2", "F", 60, [("Normal", 1)]⟩,
   ⟨"c3", "F", 60, [("Normal", 1)]⟩, ⟨"c4", "F", 60, [("Normal", 1)]⟩,
   ⟨"c5", "F", 60, [("Normal", 1)]⟩, ⟨"c6", "F", 60, [("Normal", 1)]⟩,
   ⟨"c7", "F", 60, [("Normal", 1)]⟩, ⟨"c8", "F", 60, [("Normal", 1)]⟩,
   ⟨"c9", "F", 60, [("Normal", 1)]⟩]

/-- Audio-directory entries making every case of `nineNormalDf` complete. -/
def nineNormalIds : List String := nineNormalDf.map (·.dicom_id)

/-- Gaze table with one row per case of `nineNormalDf`. -/
def nineNormalGaze : List GazeRow := nineNormalDf.map (fun r => ⟨r.dicom_id, 0⟩)

/-- Fixation table with one row per case of `nineNormalDf`. -/
def nineNormalFix : List FixRow := nineNormalDf.map (fun r => ⟨r.dicom_id, 0⟩)

/-! Basic facts about the seeded shuffle and about `pdSample`. -/

theorem cons_getElem_eraseIdx_perm (l : List α) (i : Nat) (h : i < l.length) :
    List.Perm (l.get ⟨i, h⟩ :: l.eraseIdx i) l := by
  rw [List.get_eq_getElem, List.eraseIdx_eq_take_drop_succ]
  have h1 : List.Perm (l.take i ++ l[i] :: l.drop (i + 1))
      (l[i] :: (l.take i ++ l.drop (i + 1))) := List.perm_middle
  have h2 : l.take i ++ l[i] :: l.drop (i + 1) = l := by
    rw [← List.drop_eq_getElem_cons h, List.take_append_drop]
  have h3 : List.Perm (l.take i ++ l[i] :: l.drop (i + 1)) l := by
    rw [h2]
  exact h1.symm.trans h3

theorem shuffleGo_perm : ∀ (fuel s : Nat) (l : List α), l.length ≤ fuel →
    List.Perm (shuffleGo fuel s l) l
  | 0, _, _, _ => by simp [shuffleGo]
  | _ + 1, _, [], _ => by simp [shuffleGo]
  | fuel + 1, s, a :: as, h => by
      have hlt : s % (as.length + 1) < (a :: as).length :=
        Nat.mod_lt _ (Nat.succ_pos _)
      have hlen : ((a :: as).eraseIdx (s % (as.length + 1))).length ≤ fuel := by
        rw [List.length_eraseIdx_of_lt hlt]
        simp only [List.length_cons] at h ⊢
        omega
      simp only [shuffleGo]
      exact ((shuffleGo_perm fuel (lcg s) _ hlen).cons _).trans
        (cons_getElem_eraseIdx_perm _ _ hlt)

theorem shuffle_perm (s : Nat) (l : List α) : List.Perm (shuffle s l) l :=
  shuffleGo_perm l.length s l le_rfl

theorem mem_of_mem_pdSample {rng : Nat} {rs : Option Nat} {n : Nat} {l : List α} {x : α}
    (hx : x ∈ pdSample rng rs n l) : x ∈ l :=
  (shuffle_perm _ l).mem_iff.mp ((List.take_sublist _ _).subset hx)

theorem length_pdSample (rng : Nat) (rs : Option Nat) (n : Nat) (l : List α) :
    (pdSample rng rs n l).length = min n l.length := by
  unfold pdSample
  rw [List.length_take, (shuffle_perm _ l).length_eq]

theorem map_pdSample_nodup {l : List α} (f : α → β) (h : (l.map f).Nodup)
    (rng : Nat) (rs : Option Nat) (n : Nat) :
    ((pdSample rng rs n l).map f).Nodup := by
  unfold pdSample
  rw [List.map_take]
  exact (List.take_sublist _ _).nodup (((shuffle_perm _ l).map f).nodup_iff.mpr h)

/-! Basic facts about chunked filtering. -/

theorem chunksOfGo_flatten : ∀ (fuel n : Nat) (l : List α), 0 < n → l.length ≤ fuel →
    (chunksOfGo fuel n l).flatten = l
  | 0, _, l, _, h => by
      have hl : l = [] := List.length_eq_zero.mp (Nat.le_zero.mp h)
      subst hl
      simp [chunksOfGo]
  | _ + 1, _, [], _, _ => by simp [chunksOfGo]
  | fuel + 1, n, a :: as, hn, h => by
      have hlen : ((a :: as).drop n).length ≤ fuel := by
        rw [List.length_drop]
        simp only [List.length_cons] at h ⊢
        omega
      simp only [chunksOfGo, List.flatten_cons]
      rw [chunksOfGo_flatten fuel n _ hn hlen, List.take_append_drop]

theorem chunksOf_flatten (n : Nat) (hn : 0 < n) (l : List α) :
    (chunksOf n l).flatten = l :=
  chunksOfGo_flatten l.length n l hn le_rfl

theorem flatten_filter_pos (L : List (List α)) :
    (L.filter (fun c => decide (0 < c.length))).flatten = L.flatten := by
  induction L with
  | nil => rfl
  | cons c L ih =>
      cases c with
      | nil => simpa [List.filter_cons] using ih
      | cons a as => simp [List.filter_cons, ih]

theorem chunked_isin_filter_eq (key : α → String) (ids : List String) (table : List α) :
    chunked_isin_filter key ids table = table.filter (fun r => ids.contains (key r)) := by
  unfold chunked_isin_filter
  rw [flatten_filter_pos, ← List.filter_flatten, chunksOf_flatten 10000 (by omega)]

theorem countP_not_eq (p : α → Bool) (l : List α) :
    l.countP (fun a => !p a) = l.length - l.countP p := by
  induction l with
  | nil => rfl
  | cons a l ih =>
      have hle : l.countP p ≤ l.length := List.countP_le_length (p := p)
      cases h : p a <;>
        simp [List.countP_cons, h, ih, List.length_cons]
      all_goals omega

theorem countP_contains_of_nodup :
    ∀ (l u : List String), l.Nodup → u.Nodup → (∀ x ∈ u, x ∈ l) →
      l.countP (fun x => u.contains x) = u.length := by
  intro l
  induction l with
  | nil =>
      intro u _ _ hsub
      cases u with
      | nil => rfl
      | cons a t => exact absurd (hsub a (List.mem_cons_self a t)) (List.not_mem_nil a)
  | cons x xs ih =>
      intro u hl hu hsub
      have hx_not : x ∉ xs := (List.nodup_cons.mp hl).1
      have hxs_nd : xs.Nodup := (List.nodup_cons.mp hl).2
      by_cases hx : x ∈ u
      · have herase_sub : ∀ y ∈ u.erase x, y ∈ xs := by
          intro y hy
          obtain ⟨hyx, hyu⟩ := hu.mem_erase_iff.mp hy
          rcases List.mem_cons.mp (hsub y hyu) with h | h
          · exact absurd h hyx
          · exact h
        have hcount_eq : xs.countP (fun z => u.contains z)
            = xs.countP (fun z => (u.erase x).contains z) := by
          refine List.countP_congr ?_
          intro z hz
          have hzx : z ≠ x := fun h => hx_not (h ▸ hz)
          simp [hu.mem_erase_iff, hzx]
        have hupos : 0 < u.length := List.length_pos.mpr
          (fun h => by simp [h] at hx)
        have hxc : u.contains x = true := by simpa using hx
        rw [List.countP_cons]
        simp only [hxc, if_true]
        rw [hcount_eq, ih (u.erase x) hxs_nd (hu.erase x) herase_sub,
          List.length_erase_of_mem hx]
        omega
      · have hsub' : ∀ y ∈ u, y ∈ xs := by
          intro y hyu
          rcases List.mem_cons.mp (hsub y hyu) with h | h
          · exact absurd (h ▸ hyu) hx
          · exact h
        have hxc : u.contains x = false := by simpa using hx
        rw [List.countP_cons]
        simp only [hxc, Bool.false_eq_true, if_false]
        rw [ih u hxs_nd hu hsub']
        omega

theorem length_filter_not_contains {dfc : List MasterRow} {used : List String}
    (hnd : (dfc.map (·.dicom_id)).Nodup) (hu : used.Nodup)
    (hsub : ∀ x ∈ used, x ∈ dfc.map (·.dicom_id)) :
    (dfc.filter (fun r => !used.contains r.dicom_id)).length
      = dfc.length - used.length := by
  rw [← List.countP_eq_length_filter,
    countP_not_eq (fun r => used.contains r.dicom_id) dfc]
  congr 1
  have hmap : (dfc.map (·.dicom_id)).countP (fun x => used.contains x)
      = dfc.countP (fun r => used.contains r.dicom_id) := by
    rw [List.countP_map]
    rfl
  rw [← hmap, countP_contains_of_nodup _ used hnd hu hsub]

theorem any_replicate_false {p : α → Bool} {a : α} (h : p a = false) (n : Nat) :
    (List.replicate n a).any p = false := by
  induction n with
  | zero => rfl
  | succ n ih => simp only [List.replicate_succ, List.any_cons, h, ih, Bool.false_or]

theorem validate_not_in_gaze_take (a : List String) (g : List GazeRow)
    (f : List FixRow) (d : String)
    (hg : (g.take 1000).any (fun r => r.dicom_id == d) = false) :
    validate_data_completeness (some a) (some g) (some f) [d] = [] := by
  simp [validate_data_completeness, hg]

/-- C1: for every fixed input (case index, gaze table, fixation table and
auxiliary-directory index) and target size, two invocations of
`create_diverse_sample` produce identical outputs (hence identical
case-identifier sets): every random draw passes the fixed seed 42, so the
ambient global generator state (`rng`, the only thing that could differ
between the two invocations) is never consulted. -/
theorem create_diverse_sample_deterministic (rng₁ rng₂ : Nat) (cols : List String)
    (df : List MasterRow) (aud : Option (List String)) (gaze : Option (List GazeRow))
    (fix : Option (List FixRow)) (n : Nat) :
    create_diverse_sample rng₁ cols df aud gaze fix n =
      create_diverse_sample rng₂ cols df aud gaze fix n := rfl

/-- C2: the chunked subset extraction returns exactly the source rows whose
case identifier is in the selected set, for the gaze table, the fixation
table and the bounding-box table alike.  Equality with `List.filter` says
precisely that every output row matches, every matching source row appears
exactly once, and nothing is added, dropped or duplicated. -/
theorem subset_extraction_exact (ids : List String) (g : List GazeRow)
    (f : List FixRow) (b : List BBoxRow) :
    sample_gaze_data (some g) (some f) ids =
      .ok (g.filter (fun r => ids.contains r.dicom_id),
           f.filter (fun r => ids.contains r.dicom_id)) ∧
    sample_bounding_boxes (some b) ids =
      b.filter (fun r => ids.contains r.dicom_id) := by
  refine ⟨?_, rfl⟩
  simp only [sample_gaze_data, chunked_isin_filter_eq]

/-- C8: chunks are processed sequentially and concatenated in arrival
order, so the extracted gaze/fixation subsets are sublists of the source
tables (relative source order of matching rows is preserved); in
particular, for any selected case the chronological sequence of its
fixation rows is reproduced exactly. -/
theorem chunked_extraction_preserves_order (ids : List String) (g : List GazeRow)
    (f : List FixRow) (c : String) (hc : ids.contains c = true) :
    (chunked_isin_filter GazeRow.dicom_id ids g).Sublist g ∧
    (chunked_isin_filter FixRow.dicom_id ids f).Sublist f ∧
    (chunked_isin_filter FixRow.dicom_id ids f).filter (fun r => r.dicom_id == c) =
      f.filter (fun r => r.dicom_id == c) := by
  refine ⟨?_, ?_, ?_⟩
  · rw [chunked_isin_filter_eq]
    exact List.filter_sublist _
  · rw [chunked_isin_filter_eq]
    exact List.filter_sublist _
  · rw [chunked_isin_filter_eq, List.filter_filter]
    refine List.filter_congr ?_
    intro r _
    cases hrc : r.dicom_id == c
    · simp
    · have hceq : r.dicom_id = c := by simpa using hrc
      have hmem : c ∈ ids := by simpa using hc
      simp [hceq, hmem]

/-- C4: the completeness validator classifies a case complete only if the
per-case audio-transcript directory entry exists, at least one gaze-table
row references it and at least one fixation-table row references it; by
contraposition any missing piece (in particular a missing auxiliary
directory) makes it incomplete, and the function is total, so no input
raises an error. -/
theorem validate_complete_only_if (aud : Option (List String))
    (gaze : Option (List GazeRow)) (fix : Option (List FixRow))
    (ids : List String) (d : String)
    (h : d ∈ validate_data_completeness aud gaze fix ids) :
    (∃ a, aud = some a ∧ a.contains d = true) ∧
    (∃ g, gaze = some g ∧ ∃ r ∈ g, r.dicom_id = d) ∧
    (∃ f, fix = some f ∧ ∃ r ∈ f, r.dicom_id = d) := by
  unfold validate_data_completeness at h
  rw [List.mem_filter] at h
  obtain ⟨-, hp⟩ := h
  simp only [Bool.and_eq_true] at hp
  obtain ⟨⟨ha, hg⟩, hf⟩ := hp
  refine ⟨?_, ?_, ?_⟩
  · cases aud with
    | none => simp at ha
    | some a => exact ⟨a, rfl, ha⟩
  · cases gaze with
    | none => simp at hg
    | some g =>
        refine ⟨g, rfl, ?_⟩
        rw [List.any_eq_true] at hg
        obtain ⟨r, hr, hrd⟩ := hg
        exact ⟨r, (List.take_sublist _ _).subset hr, by simpa using hrd⟩
  · cases fix with
    | none => simp at hf
    | some f =>
        refine ⟨f, rfl, ?_⟩
        rw [List.any_eq_true] at hf
        obtain ⟨r, hr, hrd⟩ := hf
        exact ⟨r, (List.take_sublist _ _).subset hr, by simpa using hrd⟩

/-- C4 witness: a concrete case with audio directory, gaze row and
fixation row is classified complete, and the theorem applies to it. -/
theorem validate_complete_only_if_witness :
    ("a" ∈ validate_data_completeness (some ["a"]) (some [⟨"a", 0⟩])
        (some [⟨"a", 0⟩]) ["a"]) ∧
    ((∃ a, (some ["a"] : Option (List String)) = some a ∧ a.contains "a" = true) ∧
     (∃ g, (some [(⟨"a", 0⟩ : GazeRow)] : Option (List GazeRow)) = some g ∧
        ∃ r ∈ g, r.dicom_id = "a") ∧
     (∃ f, (some [(⟨"a", 0⟩ : FixRow)] : Option (List FixRow)) = some f ∧
        ∃ r ∈ f, r.dicom_id = "a")) :=
  ⟨by decide, validate_complete_only_if (some ["a"]) (some [⟨"a", 0⟩])
      (some [⟨"a", 0⟩]) ["a"] "a" (by decide)⟩

/-- C9: on a concrete input the validator produces a false negative — the
case has an audio directory and matching rows in both tables, but every
matching row lies beyond the 1000-row scanned head of each table, so the
case is classified incomplete (the result is empty). -/
theorem validate_false_negative_beyond_1000 :
    validate_data_completeness (some ["X"])
        (some (List.replicate 1000 ⟨"junk", 0⟩ ++ [⟨"X", 0⟩]))
        (some (List.replicate 1000 ⟨"junk", 0⟩ ++ [⟨"X", 0⟩])) ["X"] = [] ∧
    (∃ r ∈ List.replicate 1000 (GazeRow.mk "junk" 0) ++ [GazeRow.mk "X" 0],
        r.dicom_id = "X") ∧
    (∃ r ∈ List.replicate 1000 (FixRow.mk "junk" 0) ++ [FixRow.mk "X" 0],
        r.dicom_id = "X") := by
  refine ⟨?_, ⟨⟨"X", 0⟩, List.mem_append_right _ (List.mem_singleton_self _), rfl⟩,
    ⟨⟨"X", 0⟩, List.mem_append_right _ (List.mem_singleton_self _), rfl⟩⟩
  refine validate_not_in_gaze_take _ _ _ _ ?_
  rw [List.take_left' (List.length_replicate 1000 _)]
  exact any_replicate_false (by decide) 1000

/-! Preservation of the sampling invariant through the four steps. -/

theorem accInv_init (dfc : List MasterRow) : AccInv dfc ([], []) := by
  refine ⟨rfl, ?_, ?_, ?_⟩ <;> simp [accRows]

theorem accRows_append (s : List (List MasterRow)) (u : List String)
    (b : List MasterRow) (u' : List String) :
    accRows (s ++ [b], u') = accRows (s, u) ++ b := by
  simp [accRows]

theorem appendBlock_inv {dfc : List MasterRow} {acc : SampAcc} (rng k : Nat)
    (inv : AccInv dfc acc) (hnd : (dfc.map (·.dicom_id)).Nodup)
    {data : List MasterRow} (hsub : data.Sublist dfc)
    (hdis : ∀ r ∈ data, r.dicom_id ∉ acc.2)
    (hk : 0 < k) (hkle : k ≤ data.length) :
    AccInv dfc (acc.1 ++ [pdSample rng (some 42) k data],
      acc.2 ++ (pdSample rng (some 42) k data).map (·.dicom_id)) := by
  have hbsub : ∀ r ∈ pdSample rng (some 42) k data, r ∈ data :=
    fun r hr => mem_of_mem_pdSample hr
  have hrows : accRows (acc.1 ++ [pdSample rng (some 42) k data],
      acc.2 ++ (pdSample rng (some 42) k data).map (·.dicom_id))
      = accRows acc ++ pdSample rng (some 42) k data := by
    simp [accRows]
  have hdata_nd : (data.map (·.dicom_id)).Nodup := (hsub.map _).nodup hnd
  have hb_nd : ((pdSample rng (some 42) k data).map (·.dicom_id)).Nodup :=
    map_pdSample_nodup _ hdata_nd rng (some 42) k
  have hblen : (pdSample rng (some 42) k data).length = k := by
    rw [length_pdSample]
    omega
  refine ⟨?_, ?_, ?_, ?_⟩
  · rw [hrows, List.map_append, inv.used_eq]
  · intro r hr
    rw [hrows] at hr
    rcases List.mem_append.mp hr with h | h
    · exact inv.sub r h
    · exact hsub.subset (hbsub r h)
  · rw [hrows, List.map_append]
    refine inv.nodup.append hb_nd ?_
    intro x hx1 hx2
    obtain ⟨r, hrb, hrx⟩ := List.mem_map.mp hx2
    have hnotin := hdis r (hbsub r hrb)
    rw [inv.used_eq] at hnotin
    exact hnotin (hrx ▸ hx1)
  · intro b' hb'
    rcases List.mem_append.mp hb' with h | h
    · exact inv.blocks_ne b' h
    · have hb'' : b' = pdSample rng (some 42) k data := by simpa using h
      rw [hb'']
      exact List.length_pos.mp (by omega)

theorem condStep_inv (rng quota : Nat) (hq : 0 < quota) (cols : List String)
    {dfc : List MasterRow} (hnd : (dfc.map (·.dicom_id)).Nodup)
    {acc : SampAcc} (inv : AccInv dfc acc) (c : String) :
    AccInv dfc (condStep rng quota cols dfc acc c) := by
  simp only [condStep]
  split
  · split
    · next h =>
        refine appendBlock_inv rng _ inv hnd
          ((List.filter_sublist _).trans (List.filter_sublist _)) ?_
          (lt_min hq h) (min_le_right _ _)
        intro r hr
        have := List.of_mem_filter hr
        simpa using this
    · exact inv
  · exact inv

theorem complexStep_inv (rng : Nat) (cols : List String)
    {dfc : List MasterRow} (hnd : (dfc.map (·.dicom_id)).Nodup)
    {acc : SampAcc} (inv : AccInv dfc acc) :
    AccInv dfc (complexStep rng cols dfc acc) := by
  simp only [complexStep]
  split
  · split
    · next h =>
        refine appendBlock_inv rng _ inv hnd
          ((List.filter_sublist _).trans (List.filter_sublist _)) ?_
          (lt_min (by omega) h) (min_le_right _ _)
        intro r hr
        have hr' := List.mem_of_mem_filter hr
        have := List.of_mem_filter hr'
        simpa using this
    · exact inv
  · exact inv

theorem foldl_condStep_inv (rng quota : Nat) (hq : 0 < quota) (cols : List String)
    {dfc : List MasterRow} (hnd : (dfc.map (·.dicom_id)).Nodup) :
    ∀ (cs : List String) (acc : SampAcc), AccInv dfc acc →
      AccInv dfc (cs.foldl (condStep rng quota cols dfc) acc) := by
  intro cs
  induction cs with
  | nil => intro acc inv; exact inv
  | cons c cs ih =>
      intro acc inv
      exact ih _ (condStep_inv rng quota hq cols hnd inv c)

theorem accRows_length_le {dfc : List MasterRow} {acc : SampAcc}
    (inv : AccInv dfc acc) : (accRows acc).length ≤ dfc.length := by
  have h1 : ((accRows acc).map (·.dicom_id)).Subperm (dfc.map (·.dicom_id)) := by
    refine inv.nodup.subperm ?_
    intro x hx
    obtain ⟨r, hr, hrx⟩ := List.mem_map.mp hx
    exact List.mem_map.mpr ⟨r, inv.sub r hr, hrx⟩
  have := h1.length_le
  simpa using this

theorem fillStep_spec (rng n : Nat) {dfc : List MasterRow}
    (hnd : (dfc.map (·.dicom_id)).Nodup) {acc : SampAcc} (inv : AccInv dfc acc) :
    AccInv dfc (fillStep rng n dfc acc) ∧
    (accRows (fillStep rng n dfc acc)).length
      = (accRows acc).length +
        min (n - (accRows acc).length) (dfc.length - (accRows acc).length) := by
  have hused_len : acc.2.length = (accRows acc).length := by
    rw [inv.used_eq, List.length_map]
  have hused_nd : acc.2.Nodup := by
    rw [inv.used_eq]
    exact inv.nodup
  have hused_sub : ∀ x ∈ acc.2, x ∈ dfc.map (·.dicom_id) := by
    intro x hx
    rw [inv.used_eq] at hx
    obtain ⟨r, hr, hrx⟩ := List.mem_map.mp hx
    exact List.mem_map.mpr ⟨r, inv.sub r hr, hrx⟩
  have hrem : (dfc.filter (fun r => !acc.2.contains r.dicom_id)).length
      = dfc.length - (accRows acc).length := by
    rw [length_filter_not_contains hnd hused_nd hused_sub, hused_len]
  have htot : (acc.1.map List.length).sum = (accRows acc).length := by
    rw [accRows, List.length_flatten]
  simp only [fillStep, htot]
  split
  · next hpos =>
      split
      · next hdata =>
          constructor
          · refine appendBlock_inv rng _ inv hnd (List.filter_sublist _) ?_
              (lt_min hpos hdata) (min_le_right _ _)
            intro r hr
            have := List.of_mem_filter hr
            simpa using this
          · rw [accRows_append _ acc.2, List.length_append, length_pdSample]
            rw [hrem] at hdata ⊢
            have : accRows (acc.1, acc.2) = accRows acc := rfl
            rw [this]
            omega
      · next hdata =>
          rw [hrem] at hdata
          have h0 : dfc.length - (accRows acc).length = 0 := by omega
          refine ⟨inv, ?_⟩
          rw [h0]
          simp
  · next hpos =>
      have h0 : n - (accRows acc).length = 0 := by omega
      refine ⟨inv, ?_⟩
      rw [h0]
      simp

theorem sampleAcc_spec (rng : Nat) (cols : List String) (n : Nat)
    {dfc : List MasterRow} (hnd : (dfc.map (·.dicom_id)).Nodup) :
    AccInv dfc (sampleAcc rng cols dfc n) ∧
    ∃ t3, t3 ≤ dfc.length ∧
      (accRows (sampleAcc rng cols dfc n)).length
        = t3 + min (n - t3) (dfc.length - t3) := by
  have inv1 := foldl_condStep_inv rng 8 (by omega) cols hnd
    primary_conditions ([], []) (accInv_init dfc)
  have inv2 := complexStep_inv rng cols hnd inv1
  have inv3 := foldl_condStep_inv rng 3 (by omega) cols hnd
    secondary_conditions _ inv2
  obtain ⟨inv4, hlen⟩ := fillStep_spec rng n hnd inv3
  exact ⟨inv4, _, accRows_length_le inv3, hlen⟩

theorem dfc_map_nodup {df : List MasterRow} (hnd : (df.map (·.dicom_id)).Nodup)
    (aud : Option (List String)) (gaze : Option (List GazeRow))
    (fix : Option (List FixRow)) :
    ((df_complete_of aud gaze fix df).map (·.dicom_id)).Nodup := by
  unfold df_complete_of
  exact ((List.filter_sublist _).map _).nodup hnd

/-- C3: when the case index has unique case identifiers (an invariant of
the master sheet), the sample returned by `create_diverse_sample` has no
duplicate identifiers, and its size is exactly the minimum of the target
size and the number of cases that passed completeness validation; in
particular the size never exceeds the target. -/
theorem create_diverse_sample_size (rng : Nat) (cols : List String)
    (df : List MasterRow) (aud : Option (List String)) (gaze : Option (List GazeRow))
    (fix : Option (List FixRow)) (n : Nat) (hnd : (df.map (·.dicom_id)).Nodup) :
    ((create_diverse_sample rng cols df aud gaze fix n).map (·.dicom_id)).Nodup ∧
    (create_diverse_sample rng cols df aud gaze fix n).length
      = min n (df_complete_of aud gaze fix df).length := by
  have hdfc_nd := dfc_map_nodup hnd aud gaze fix
  obtain ⟨inv4, t3, ht3, hlen⟩ := sampleAcc_spec rng cols n hdfc_nd
  simp only [create_diverse_sample]
  set dfc := df_complete_of aud gaze fix df with hdfc
  set S := sampleAcc rng cols dfc n with hS
  by_cases hempty : S.1.isEmpty = true
  · have hS1 : S.1 = [] := by simpa using hempty
    have hrows0 : (accRows S).length = 0 := by
      rw [accRows, hS1]
      rfl
    have h0 : t3 + min (n - t3) (dfc.length - t3) = 0 := by rw [← hlen, hrows0]
    have hminV : min n dfc.length = 0 := by omega
    rw [if_pos hempty]
    have hlen_inner : (pdSample rng (some 42) (min n dfc.length) dfc).length = 0 := by
      rw [length_pdSample]
      omega
    rw [if_neg (by omega : ¬ n < (pdSample rng (some 42) (min n dfc.length) dfc).length)]
    refine ⟨map_pdSample_nodup _ hdfc_nd rng (some 42) (min n dfc.length), ?_⟩
    omega
  · rw [if_neg hempty]
    have hflat : S.1.flatten = accRows S := rfl
    rw [hflat]
    by_cases hdown : n < (accRows S).length
    · rw [if_pos hdown]
      refine ⟨map_pdSample_nodup _ inv4.nodup rng (some 42) n, ?_⟩
      rw [length_pdSample]
      rw [hlen] at hdown ⊢
      omega
    · rw [if_neg hdown]
      refine ⟨inv4.nodup, ?_⟩
      rw [hlen] at hdown ⊢
      omega

/-- C3 witness: on a one-case index with complete data and target size 5,
the hypotheses hold and the sample has exactly min 5 1 = 1 case. -/
theorem create_diverse_sample_size_witness :
    (([⟨"a", "F", 60, []⟩] : List MasterRow).map (·.dicom_id)).Nodup ∧
    (((create_diverse_sample 0 [] [⟨"a", "F", 60, []⟩] (some ["a"])
        (some [⟨"a", 0⟩]) (some [⟨"a", 0⟩]) 5).map (·.dicom_id)).Nodup ∧
     (create_diverse_sample 0 [] [⟨"a", "F", 60, []⟩] (some ["a"])
        (some [⟨"a", 0⟩]) (some [⟨"a", 0⟩]) 5).length
       = min 5 (df_complete_of (some ["a"]) (some [⟨"a", 0⟩]) (some [⟨"a", 0⟩])
          [⟨"a", "F", 60, []⟩]).length) :=
  ⟨by decide, create_diverse_sample_size 0 [] [⟨"a", "F", 60, []⟩] (some ["a"])
      (some [⟨"a", 0⟩]) (some [⟨"a", 0⟩]) 5 (by decide)⟩

/-! Membership facts that hold with no assumption on the case index. -/

theorem condStep_rows_sub (rng quota : Nat) (cols : List String)
    (dfc : List MasterRow) (acc : SampAcc) (c : String) :
    ∀ r ∈ accRows (condStep rng quota cols dfc acc c), r ∈ accRows acc ∨ r ∈ dfc := by
  simp only [condStep]
  split
  · split
    · intro r hr
      rw [accRows_append _ acc.2] at hr
      have heta : accRows (acc.1, acc.2) = accRows acc := rfl
      rw [heta] at hr
      rcases List.mem_append.mp hr with h | h
      · exact Or.inl h
      · exact Or.inr (List.mem_of_mem_filter
          (List.mem_of_mem_filter (mem_of_mem_pdSample h)))
    · intro r hr
      exact Or.inl hr
  · intro r hr
    exact Or.inl hr

theorem complexStep_rows_sub (rng : Nat) (cols : List String)
    (dfc : List MasterRow) (acc : SampAcc) :
    ∀ r ∈ accRows (complexStep rng cols dfc acc), r ∈ accRows acc ∨ r ∈ dfc := by
  simp only [complexStep]
  split
  · split
    · intro r hr
      rw [accRows_append _ acc.2] at hr
      have heta : accRows (acc.1, acc.2) = accRows acc := rfl
      rw [heta] at hr
      rcases List.mem_append.mp hr with h | h
      · exact Or.inl h
      · exact Or.inr (List.mem_of_mem_filter
          (List.mem_of_mem_filter (mem_of_mem_pdSample h)))
    · intro r hr
      exact Or.inl hr
  · intro r hr
    exact Or.inl hr

theorem fillStep_rows_sub (rng n : Nat) (dfc : List MasterRow) (acc : SampAcc) :
    ∀ r ∈ accRows (fillStep rng n dfc acc), r ∈ accRows acc ∨ r ∈ dfc := by
  simp only [fillStep]
  split
  · split
    · intro r hr
      rw [accRows_append _ acc.2] at hr
      have heta : accRows (acc.1, acc.2) = accRows acc := rfl
      rw [heta] at hr
      rcases List.mem_append.mp hr with h | h
      · exact Or.inl h
      · exact Or.inr (List.mem_of_mem_filter (mem_of_mem_pdSample h))
    · intro r hr
      exact Or.inl hr
  · intro r hr
    exact Or.inl hr

theorem foldl_condStep_rows_sub (rng quota : Nat) (cols : List String)
    (dfc : List MasterRow) :
    ∀ (cs : List String) (acc : SampAcc), (∀ r ∈ accRows acc, r ∈ dfc) →
      ∀ r ∈ accRows (cs.foldl (condStep rng quota cols dfc) acc), r ∈ dfc := by
  intro cs
  induction cs with
  | nil => intro acc h; exact h
  | cons c cs ih =>
      intro acc h
      refine ih _ ?_
      intro r hr
      rcases condStep_rows_sub rng quota cols dfc acc c r hr with h1 | h1
      · exact h r h1
      · exact h1

theorem sampleAcc_rows_sub (rng : Nat) (cols : List String)
    (dfc : List MasterRow) (n : Nat) :
    ∀ r ∈ accRows (sampleAcc rng cols dfc n), r ∈ dfc := by
  simp only [sampleAcc]
  intro r hr
  have h0 : ∀ x ∈ accRows (([], []) : SampAcc), x ∈ dfc := by
    intro x hx
    simp [accRows] at hx
  have h1 := foldl_condStep_rows_sub rng 8 cols dfc primary_conditions ([], []) h0
  have h2 : ∀ x ∈ accRows (complexStep rng cols dfc
      (primary_conditions.foldl (condStep rng 8 cols dfc) ([], []))), x ∈ dfc := by
    intro x hx
    rcases complexStep_rows_sub rng cols dfc _ x hx with h | h
    · exact h1 x h
    · exact h
  have h3 := foldl_condStep_rows_sub rng 3 cols dfc secondary_conditions _ h2
  rcases fillStep_rows_sub rng n dfc _ r hr with h | h
  · exact h3 r h
  · exact h

/-- C7: every case in the produced sample belongs to the validated pool —
its row comes from the case index and its identifier passed
`validate_data_completeness` (audio directory present, rows found in the
scanned heads of both the gaze and fixation sources); no sampling step
draws from outside the validated pool. -/
theorem create_diverse_sample_subset_validated (rng : Nat) (cols : List String)
    (df : List MasterRow) (aud : Option (List String)) (gaze : Option (List GazeRow))
    (fix : Option (List FixRow)) (n : Nat) (r : MasterRow)
    (hr : r ∈ create_diverse_sample rng cols df aud gaze fix n) :
    r ∈ df ∧
    r.dicom_id ∈ validate_data_completeness aud gaze fix (df.map (·.dicom_id)) := by
  have hmem : r ∈ df_complete_of aud gaze fix df := by
    simp only [create_diverse_sample] at hr
    set dfc := df_complete_of aud gaze fix df with hdfc
    set S := sampleAcc rng cols dfc n with hS
    split at hr
    · split at hr
      · exact mem_of_mem_pdSample (mem_of_mem_pdSample hr)
      · exact mem_of_mem_pdSample hr
    · split at hr
      · exact sampleAcc_rows_sub rng cols dfc n r (mem_of_mem_pdSample hr)
      · exact sampleAcc_rows_sub rng cols dfc n r hr
  unfold df_complete_of at hmem
  obtain ⟨h1, h2⟩ := List.mem_filter.mp hmem
  exact ⟨h1, by simpa using h2⟩

/-- C7 witness: a concrete complete case ends up in the sample and the
theorem applies to it. -/
theorem create_diverse_sample_subset_validated_witness :
    ((⟨"a", "F", 60, []⟩ : MasterRow) ∈ create_diverse_sample 0 []
        [⟨"a", "F", 60, []⟩] (some ["a"]) (some [⟨"a", 0⟩]) (some [⟨"a", 0⟩]) 5) ∧
    ((⟨"a", "F", 60, []⟩ : MasterRow) ∈ [(⟨"a", "F", 60, []⟩ : MasterRow)] ∧
     "a" ∈ validate_data_completeness (some ["a"]) (some [⟨"a", 0⟩])
        (some [⟨"a", 0⟩]) ([(⟨"a", "F", 60, []⟩ : MasterRow)].map (·.dicom_id))) :=
  ⟨by decide, create_diverse_sample_subset_validated 0 [] [⟨"a", "F", 60, []⟩]
      (some ["a"]) (some [⟨"a", 0⟩]) (some [⟨"a", 0⟩]) 5 ⟨"a", "F", 60, []⟩ (by decide)⟩

/-! Behaviour when the audio-transcript directory is absent. -/

theorem validate_aud_none (gaze : Option (List GazeRow)) (fix : Option (List FixRow))
    (ids : List String) : validate_data_completeness none gaze fix ids = [] := by
  simp [validate_data_completeness]

theorem condStep_dfc_nil (rng quota : Nat) (cols : List String) (acc : SampAcc)
    (c : String) : condStep rng quota cols [] acc c = acc := by
  simp [condStep]

theorem complexStep_dfc_nil (rng : Nat) (cols : List String) (acc : SampAcc) :
    complexStep rng cols [] acc = acc := by
  simp [complexStep]

theorem fillStep_dfc_nil (rng n : Nat) (acc : SampAcc) :
    fillStep rng n [] acc = acc := by
  simp [fillStep]

theorem foldl_condStep_dfc_nil (rng quota : Nat) (cols : List String)
    (cs : List String) (acc : SampAcc) :
    cs.foldl (condStep rng quota cols []) acc = acc := by
  induction cs generalizing acc with
  | nil => rfl
  | cons c cs ih => rw [List.foldl_cons, condStep_dfc_nil, ih]

theorem sampleAcc_dfc_nil (rng : Nat) (cols : List String) (n : Nat) :
    sampleAcc rng cols [] n = ([], []) := by
  rw [sampleAcc, foldl_condStep_dfc_nil, complexStep_dfc_nil,
    foldl_condStep_dfc_nil, fillStep_dfc_nil]

theorem create_diverse_sample_aud_none (rng : Nat) (cols : List String)
    (df : List MasterRow) (gaze : Option (List GazeRow)) (fix : Option (List FixRow))
    (n : Nat) : create_diverse_sample rng cols df none gaze fix n = [] := by
  have hdfc : df_complete_of none gaze fix df = [] := by
    unfold df_complete_of
    rw [validate_aud_none]
    simp
  simp [create_diverse_sample, hdfc, sampleAcc_dfc_nil, pdSample, shuffle, shuffleGo]

/-- C10: whenever the produced sample is empty (for instance when no case
passes completeness validation), `create_comprehensive_metadata` raises a
division-by-zero error while computing the completeness rate instead of
reporting an empty summary; concretely, for every master sheet, a missing
audio-transcript directory empties the validated pool, so the whole run
aborts with that division error. -/
theorem metadata_division_by_zero (cols : List String) (sample_df : List MasterRow)
    (g f b a : Nat) (rng : Nat) (cols2 : List String) (df2 : List MasterRow)
    (bbox2 : Option (List BBoxRow)) (n2 : Nat)
    (h : sample_df.length = 0) :
    create_comprehensive_metadata cols sample_df g f b a
      = .error "ZeroDivisionError: division by zero" ∧
    run_enhanced_sampling rng (some (cols2, df2)) none none none bbox2 n2
      = .error "ZeroDivisionError: division by zero" := by
  constructor
  · simp [create_comprehensive_metadata, h]
  · simp [run_enhanced_sampling, load_master_sheet, create_diverse_sample_aud_none,
      copy_audio_transcripts, sample_gaze_data, sample_bounding_boxes,
      create_comprehensive_metadata, Bind.bind, Except.bind]

/-- C10 witness: the empty sample with concrete counts triggers the error,
and the run with a concrete one-row master sheet but no audio directory
aborts with the division error. -/
theorem metadata_division_by_zero_witness :
    (([] : List MasterRow).length = 0) ∧
    (create_comprehensive_metadata [] [] 0 0 0 0
        = .error "ZeroDivisionError: division by zero" ∧
     run_enhanced_sampling 0 (some ([], [⟨"a", "F", 60, []⟩])) none none none none 1
        = .error "ZeroDivisionError: division by zero") :=
  ⟨rfl, metadata_division_by_zero [] [] 0 0 0 0 0 [] [⟨"a", "F", 60, []⟩] none 1 rfl⟩

/-- C5 counterexample: with the case index, audio directory, gaze and
fixation tables all present but the bounding-box table missing, the run
completes successfully with zero bounding-box records — it is logged and
skipped, not a fatal error identifying the missing file. -/
theorem missing_bbox_not_fatal :
    (run_enhanced_sampling 0 (some (["Normal"], [⟨"a", "F", 60, [("Normal", 1)]⟩]))
        (some ["a"]) (some [⟨"a", 0⟩]) (some [⟨"a", 0⟩]) none 1).toOption.isSome = true ∧
    (run_enhanced_sampling 0 (some (["Normal"], [⟨"a", "F", 60, [("Normal", 1)]⟩]))
        (some ["a"]) (some [⟨"a", 0⟩]) (some [⟨"a", 0⟩]) none 1).toOption.map
      (·.bounding_box_records) = some 0 := by
  decide

/-- C5 amended: only a missing case index (master sheet) is fatal at load
time, and the error identifies it; a missing bounding-box table is logged
and skipped with zero records while the run continues (and a missing
gaze or fixation table merely empties or skips the corresponding
extraction rather than aborting with a file error). -/
theorem missing_master_sheet_fatal (rng : Nat) (aud : Option (List String))
    (gaze : Option (List GazeRow)) (fix : Option (List FixRow))
    (bbox : Option (List BBoxRow)) (n : Nat) :
    run_enhanced_sampling rng none aud gaze fix bbox n
      = .error "FileNotFoundError: Master sheet not found" := rfl

/-! Shape of the sampling steps: each either leaves the accumulator
unchanged or appends one block drawn from the pool. -/

theorem condStep_shape (rng quota : Nat) (cols : List String) (dfc : List MasterRow)
    (acc : SampAcc) (c : String) :
    condStep rng quota cols dfc acc c = acc ∨
    ∃ b : List MasterRow,
      condStep rng quota cols dfc acc c = (acc.1 ++ [b], acc.2 ++ b.map (·.dicom_id)) ∧
      b.length ≤ quota ∧ ∀ r ∈ b, r ∈ dfc ∧ flagVal r c = 1 := by
  simp only [condStep]
  split
  · split
    · right
      refine ⟨_, rfl, ?_, ?_⟩
      · rw [length_pdSample]
        exact le_trans (min_le_left _ _) (min_le_left _ _)
      · intro r hr
        have h1 := mem_of_mem_pdSample hr
        have h2 := List.mem_of_mem_filter h1
        refine ⟨List.mem_of_mem_filter h2, ?_⟩
        have := List.of_mem_filter h2
        simpa using this
    · exact Or.inl rfl
  · exact Or.inl rfl

theorem complexStep_shape (rng : Nat) (cols : List String) (dfc : List MasterRow)
    (acc : SampAcc) :
    complexStep rng cols dfc acc = acc ∨
    ∃ b : List MasterRow,
      complexStep rng cols dfc acc = (acc.1 ++ [b], acc.2 ++ b.map (·.dicom_id)) ∧
      b.length ≤ 8 ∧ ∀ r ∈ b, r ∈ dfc := by
  simp only [complexStep]
  split
  · split
    · right
      refine ⟨_, rfl, ?_, ?_⟩
      · rw [length_pdSample]
        exact le_trans (min_le_left _ _) (min_le_left _ _)
      · intro r hr
        exact List.mem_of_mem_filter
          (List.mem_of_mem_filter (mem_of_mem_pdSample hr))
    · exact Or.inl rfl
  · exact Or.inl rfl

theorem fillStep_shape (rng n : Nat) (dfc : List MasterRow) (acc : SampAcc) :
    fillStep rng n dfc acc = acc ∨
    ∃ b : List MasterRow,
      fillStep rng n dfc acc = (acc.1 ++ [b], acc.2 ++ b.map (·.dicom_id)) ∧
      b.length ≤ n - (accRows acc).length ∧ ∀ r ∈ b, r ∈ dfc := by
  have htot : (acc.1.map List.length).sum = (accRows acc).length := by
    rw [accRows, List.length_flatten]
  simp only [fillStep, htot]
  split
  · split
    · right
      refine ⟨_, rfl, ?_, ?_⟩
      · rw [length_pdSample]
        exact le_trans (min_le_left _ _) (min_le_left _ _)
      · intro r hr
        exact List.mem_of_mem_filter (mem_of_mem_pdSample hr)
    · exact Or.inl rfl
  · exact Or.inl rfl

theorem accRows_of_append_shape {acc acc' : SampAcc} {b : List MasterRow}
    (h : acc' = (acc.1 ++ [b], acc.2 ++ b.map (·.dicom_id))) :
    accRows acc' = accRows acc ++ b := by
  rw [h, accRows_append _ acc.2]

theorem condStep_countP_mono (p : MasterRow → Bool) (rng quota : Nat)
    (cols : List String) (dfc : List MasterRow) (acc : SampAcc) (c : String) :
    (accRows acc).countP p ≤ (accRows (condStep rng quota cols dfc acc c)).countP p := by
  rcases condStep_shape rng quota cols dfc acc c with h | ⟨b, h, -, -⟩
  · rw [h]
  · rw [accRows_of_append_shape h, List.countP_append]
    omega

theorem foldl_condStep_countP_mono (p : MasterRow → Bool) (rng quota : Nat)
    (cols : List String) (dfc : List MasterRow) :
    ∀ (cs : List String) (acc : SampAcc),
      (accRows acc).countP p ≤
        (accRows (cs.foldl (condStep rng quota cols dfc) acc)).countP p := by
  intro cs
  induction cs with
  | nil => intro acc; exact le_refl _
  | cons c cs ih =>
      intro acc
      exact le_trans (condStep_countP_mono p rng quota cols dfc acc c) (ih _)

theorem complexStep_countP_mono (p : MasterRow → Bool) (rng : Nat)
    (cols : List String) (dfc : List MasterRow) (acc : SampAcc) :
    (accRows acc).countP p ≤ (accRows (complexStep rng cols dfc acc)).countP p := by
  rcases complexStep_shape rng cols dfc acc with h | ⟨b, h, -, -⟩
  · rw [h]
  · rw [accRows_of_append_shape h, List.countP_append]
    omega

theorem fillStep_countP_mono (p : MasterRow → Bool) (rng n : Nat)
    (dfc : List MasterRow) (acc : SampAcc) :
    (accRows acc).countP p ≤ (accRows (fillStep rng n dfc acc)).countP p := by
  rcases fillStep_shape rng n dfc acc with h | ⟨b, h, -, -⟩
  · rw [h]
  · rw [accRows_of_append_shape h, List.countP_append]
    omega

theorem condStep_len_le (rng quota : Nat) (cols : List String) (dfc : List MasterRow)
    (acc : SampAcc) (c : String) :
    (accRows (condStep rng quota cols dfc acc c)).length
      ≤ (accRows acc).length + quota := by
  rcases condStep_shape rng quota cols dfc acc c with h | ⟨b, h, hlen, -⟩
  · rw [h]
    omega
  · rw [accRows_of_append_shape h, List.length_append]
    omega

theorem foldl_condStep_len_le (rng quota : Nat) (cols : List String)
    (dfc : List MasterRow) :
    ∀ (cs : List String) (acc : SampAcc),
      (accRows (cs.foldl (condStep rng quota cols dfc) acc)).length
        ≤ (accRows acc).length + cs.length * quota := by
  intro cs
  induction cs with
  | nil => intro acc; simp
  | cons c cs ih =>
      intro acc
      have h1 := ih (condStep rng quota cols dfc acc c)
      have h2 := condStep_len_le rng quota cols dfc acc c
      simp only [List.foldl_cons, List.length_cons]
      calc (accRows (cs.foldl (condStep rng quota cols dfc)
              (condStep rng quota cols dfc acc c))).length
          ≤ (accRows (condStep rng quota cols dfc acc c)).length + cs.length * quota := h1
        _ ≤ (accRows acc).length + quota + cs.length * quota := by omega
        _ = (accRows acc).length + (cs.length + 1) * quota := by ring

theorem complexStep_len_le (rng : Nat) (cols : List String) (dfc : List MasterRow)
    (acc : SampAcc) :
    (accRows (complexStep rng cols dfc acc)).length ≤ (accRows acc).length + 8 := by
  rcases complexStep_shape rng cols dfc acc with h | ⟨b, h, hlen, -⟩
  · rw [h]
    omega
  · rw [accRows_of_append_shape h, List.length_append]
    omega

theorem fillStep_len_le (rng n : Nat) (dfc : List MasterRow) (acc : SampAcc) :
    (accRows (fillStep rng n dfc acc)).length ≤ max (accRows acc).length n := by
  rcases fillStep_shape rng n dfc acc with h | ⟨b, h, hlen, -⟩
  · rw [h]
    omega
  · rw [accRows_of_append_shape h, List.length_append]
    omega

/-! The quota step for a condition whose positive cases are still
untouched draws exactly the quota, and earlier steps over other
conditions never touch those cases when the conditions do not overlap. -/

theorem condStep_at_quota (rng quota : Nat) (cols : List String)
    (dfc : List MasterRow) (acc : SampAcc) (A : String)
    (hcol : cols.contains A = true) (hq : 0 < quota)
    (hNA : ∀ r ∈ dfc, flagVal r A = 1 → r.dicom_id ∉ acc.2)
    (hpool : quota ≤ (dfc.filter (fun r => flagVal r A == 1)).length) :
    ∃ b : List MasterRow,
      condStep rng quota cols dfc acc A = (acc.1 ++ [b], acc.2 ++ b.map (·.dicom_id)) ∧
      b.length = quota ∧ ∀ r ∈ b, flagVal r A = 1 := by
  simp only [condStep]
  rw [if_pos hcol]
  have hdata : (dfc.filter (fun r => flagVal r A == 1)).filter
      (fun r => !acc.2.contains r.dicom_id)
      = dfc.filter (fun r => flagVal r A == 1) := by
    refine List.filter_eq_self.mpr ?_
    intro r hr
    have h1 : r ∈ dfc := List.mem_of_mem_filter hr
    have h2 : flagVal r A = 1 := by simpa using List.of_mem_filter hr
    simpa using hNA r h1 h2
  rw [hdata]
  have hlenpos : 0 < (dfc.filter (fun r => flagVal r A == 1)).length :=
    lt_of_lt_of_le hq hpool
  rw [if_pos hlenpos]
  refine ⟨_, rfl, ?_, ?_⟩
  · rw [length_pdSample]
    omega
  · intro r hr
    have := List.of_mem_filter (mem_of_mem_pdSample hr)
    simpa using this

theorem condStep_preserves_NA (rng quota : Nat) (cols : List String)
    {dfc : List MasterRow} (hnd : (dfc.map (·.dicom_id)).Nodup)
    (acc : SampAcc) (c A : String)
    (hNA : ∀ r ∈ dfc, flagVal r A = 1 → r.dicom_id ∉ acc.2)
    (hOV : ∀ r ∈ dfc, flagVal r A = 1 → flagVal r c ≠ 1) :
    ∀ r ∈ dfc, flagVal r A = 1 →
      r.dicom_id ∉ (condStep rng quota cols dfc acc c).2 := by
  rcases condStep_shape rng quota cols dfc acc c with h | ⟨b, h, -, hbin⟩
  · rw [h]
    exact hNA
  · rw [h]
    intro r hr hrA hmem
    rcases List.mem_append.mp hmem with h1 | h1
    · exact hNA r hr hrA h1
    · obtain ⟨r', hr'b, hr'id⟩ := List.mem_map.mp h1
      obtain ⟨hr'dfc, hr'c⟩ := hbin r' hr'b
      have heq : r' = r := List.inj_on_of_nodup_map hnd hr'dfc hr hr'id
      rw [heq] at hr'c
      exact hOV r hr hrA hr'c

theorem foldl_condStep_preserves_NA (rng quota : Nat) (cols : List String)
    {dfc : List MasterRow} (hnd : (dfc.map (·.dicom_id)).Nodup) (A : String) :
    ∀ (cs : List String) (acc : SampAcc),
      (∀ r ∈ dfc, flagVal r A = 1 → ∀ c ∈ cs, flagVal r c ≠ 1) →
      (∀ r ∈ dfc, flagVal r A = 1 → r.dicom_id ∉ acc.2) →
      ∀ r ∈ dfc, flagVal r A = 1 →
        r.dicom_id ∉ (cs.foldl (condStep rng quota cols dfc) acc).2 := by
  intro cs
  induction cs with
  | nil => intro acc _ hNA; exact hNA
  | cons c cs ih =>
      intro acc hOV hNA
      refine ih _ ?_ ?_
      · intro r hr hrA c' hc'
        exact hOV r hr hrA c' (List.mem_cons_of_mem _ hc')
      · exact condStep_preserves_NA rng quota cols hnd acc c A hNA
          (fun r hr hrA => hOV r hr hrA c (List.mem_cons_self _ _))

/-- C6 (amended): for a primary condition `A` whose column is present,
whose validated positive cases are positive for no other condition, and
which has at least `primary_quota = 8` validated positive cases, the
sample contains at least 8 cases positive for `A` whenever the target size
is at least 44 (the maximum total of the quota steps, so no downsampling
occurs; the default target 50 qualifies).  The count can exceed the quota
because the unconstrained fill step may draw further `A`-positive cases. -/
theorem primary_quota_at_least (rng : Nat) (cols : List String) (df : List MasterRow)
    (aud : Option (List String)) (gaze : Option (List GazeRow))
    (fix : Option (List FixRow)) (n : Nat) (A : String)
    (hnd : (df.map (·.dicom_id)).Nodup)
    (hA : A ∈ primary_conditions)
    (hcol : cols.contains A = true)
    (hovl : ∀ r ∈ df_complete_of aud gaze fix df, flagVal r A = 1 →
        ∀ c ∈ primary_conditions ++ secondary_conditions, c ≠ A → flagVal r c ≠ 1)
    (hpool : 8 ≤ ((df_complete_of aud gaze fix df).filter
        (fun r => flagVal r A == 1)).length)
    (hn : 44 ≤ n) :
    8 ≤ (create_diverse_sample rng cols df aud gaze fix n).countP
      (fun r => flagVal r A == 1) := by
  set dfc := df_complete_of aud gaze fix df with hdfc
  have hdfc_nd : (dfc.map (·.dicom_id)).Nodup := hdfc ▸ dfc_map_nodup hnd aud gaze fix
  obtain ⟨pre, post, hsplit⟩ := List.append_of_mem hA
  have hnd_primary : primary_conditions.Nodup := by decide
  have hnd_p : (pre ++ A :: post).Nodup := hsplit ▸ hnd_primary
  have hAnp : A ∉ pre := by
    have h := List.nodup_append.mp hnd_p
    exact fun hmem => h.2.2 hmem (List.mem_cons_self A post)
  have hpre_primary : ∀ c ∈ pre, c ∈ primary_conditions := by
    intro c hc
    rw [hsplit]
    exact List.mem_append_left _ hc
  have hOVpre : ∀ r ∈ dfc, flagVal r A = 1 → ∀ c ∈ pre, flagVal r c ≠ 1 := by
    intro r hr hrA c hc
    have hcA : c ≠ A := fun h => hAnp (h ▸ hc)
    exact hovl r hr hrA c (List.mem_append_left _ (hpre_primary c hc)) hcA
  have hfold1 : primary_conditions.foldl (condStep rng 8 cols dfc) ([], []) =
      post.foldl (condStep rng 8 cols dfc)
        (condStep rng 8 cols dfc (pre.foldl (condStep rng 8 cols dfc) ([], [])) A) := by
    rw [hsplit, List.foldl_append, List.foldl_cons]
  have hNA_P : ∀ r ∈ dfc, flagVal r A = 1 →
      r.dicom_id ∉ (pre.foldl (condStep rng 8 cols dfc) ([], [])).2 := by
    refine foldl_condStep_preserves_NA rng 8 cols hdfc_nd A pre ([], []) hOVpre ?_
    intro r _ _ h
    exact List.not_mem_nil _ h
  obtain ⟨b, hbstep, hblen, hbA⟩ := condStep_at_quota rng 8 cols dfc
    (pre.foldl (condStep rng 8 cols dfc) ([], [])) A hcol (by omega) hNA_P hpool
  have hcountb : b.countP (fun r => flagVal r A == 1) = 8 := by
    have hb8 : b.countP (fun r => flagVal r A == 1) = b.length :=
      List.countP_eq_length.mpr (fun r hr => by simpa using hbA r hr)
    rw [hb8, hblen]
  have hcount_afterA : 8 ≤ (accRows (condStep rng 8 cols dfc
      (pre.foldl (condStep rng 8 cols dfc) ([], [])) A)).countP
      (fun r => flagVal r A == 1) := by
    rw [accRows_of_append_shape hbstep, List.countP_append, hcountb]
    omega
  have hcount1 : 8 ≤ (accRows (primary_conditions.foldl
      (condStep rng 8 cols dfc) ([], []))).countP (fun r => flagVal r A == 1) := by
    rw [hfold1]
    exact le_trans hcount_afterA
      (foldl_condStep_countP_mono _ rng 8 cols dfc post _)
  have hcount2 := le_trans hcount1 (complexStep_countP_mono
    (fun r => flagVal r A == 1) rng cols dfc
    (primary_conditions.foldl (condStep rng 8 cols dfc) ([], [])))
  have hcount3 := le_trans hcount2 (foldl_condStep_countP_mono
    (fun r => flagVal r A == 1) rng 3 cols dfc secondary_conditions
    (complexStep rng cols dfc
      (primary_conditions.foldl (condStep rng 8 cols dfc) ([], []))))
  have hcount4 : 8 ≤ (accRows (sampleAcc rng cols dfc n)).countP
      (fun r => flagVal r A == 1) := by
    rw [sampleAcc]
    exact le_trans hcount3 (fillStep_countP_mono _ rng n dfc _)
  have ht1raw := foldl_condStep_len_le rng 8 cols dfc primary_conditions ([], [])
  have hbase : (accRows (([], []) : SampAcc)).length = 0 := rfl
  have hplen : primary_conditions.length = 3 := rfl
  rw [hbase, hplen] at ht1raw
  have ht2raw := complexStep_len_le rng cols dfc
    (primary_conditions.foldl (condStep rng 8 cols dfc) ([], []))
  have ht3raw := foldl_condStep_len_le rng 3 cols dfc secondary_conditions
    (complexStep rng cols dfc
      (primary_conditions.foldl (condStep rng 8 cols dfc) ([], [])))
  have hslen : secondary_conditions.length = 4 := rfl
  rw [hslen] at ht3raw
  have ht4raw := fillStep_len_le rng n dfc
    (secondary_conditions.foldl (condStep rng 3 cols dfc)
      (complexStep rng cols dfc
        (primary_conditions.foldl (condStep rng 8 cols dfc) ([], []))))
  have hSA : sampleAcc rng cols dfc n = fillStep rng n dfc
      (secondary_conditions.foldl (condStep rng 3 cols dfc)
        (complexStep rng cols dfc
          (primary_conditions.foldl (condStep rng 8 cols dfc) ([], [])))) := rfl
  have ht4 : (accRows (sampleAcc rng cols dfc n)).length ≤ n := by
    rw [hSA]
    omega
  simp only [create_diverse_sample]
  rw [← hdfc]
  have hne : ¬ ((sampleAcc rng cols dfc n).1.isEmpty = true) := by
    intro hemp
    have hS1 : (sampleAcc rng cols dfc n).1 = [] := by simpa using hemp
    have hzero : (accRows (sampleAcc rng cols dfc n)).countP
        (fun r => flagVal r A == 1) = 0 := by
      rw [accRows, hS1]
      rfl
    omega
  rw [if_neg hne]
  have hflat : (sampleAcc rng cols dfc n).1.flatten
      = accRows (sampleAcc rng cols dfc n) := rfl
  rw [hflat]
  rw [if_neg (show ¬ n < (accRows (sampleAcc rng cols dfc n)).length by omega)]
  exact hcount4

/-- C6 counterexample: on the nine-case `Normal`-only index (which
satisfies every hypothesis of the claim — the condition column is present,
more than `primary_quota = 8` validated cases are positive for `Normal`,
and they are positive for no other condition) the sample produced with the
default target size 50 contains 9 cases positive for `Normal`, not exactly
8: the quota step draws 8 and the unconstrained fill step draws the ninth. -/
theorem primary_quota_not_exact :
    (∀ r ∈ df_complete_of (some nineNormalIds) (some nineNormalGaze)
        (some nineNormalFix) nineNormalDf, flagVal r "Normal" = 1 →
        ∀ c ∈ primary_conditions ++ secondary_conditions, c ≠ "Normal" →
          flagVal r c ≠ 1) ∧
    8 < ((df_complete_of (some nineNormalIds) (some nineNormalGaze)
        (some nineNormalFix) nineNormalDf).filter
      (fun r => flagVal r "Normal" == 1)).length ∧
    (create_diverse_sample 0 ["Normal"] nineNormalDf (some nineNormalIds)
        (some nineNormalGaze) (some nineNormalFix) 50).countP
      (fun r => flagVal r "Normal" == 1) = 9 := by
  decide

/-- C6 witness: the amended theorem applies to the nine-case index with
the default target size 50, giving at least 8 `Normal`-positive cases. -/
theorem primary_quota_at_least_witness :
    ((nineNormalDf.map (·.dicom_id)).Nodup ∧
     "Normal" ∈ primary_conditions ∧
     (["Normal"] : List String).contains "Normal" = true ∧
     (∀ r ∈ df_complete_of (some nineNormalIds) (some nineNormalGaze)
         (some nineNormalFix) nineNormalDf, flagVal r "Normal" = 1 →
         ∀ c ∈ primary_conditions ++ secondary_conditions, c ≠ "Normal" →
           flagVal r c ≠ 1) ∧
     8 ≤ ((df_complete_of (some nineNormalIds) (some nineNormalGaze)
         (some nineNormalFix) nineNormalDf).filter
       (fun r => flagVal r "Normal" == 1)).length ∧
     44 ≤ 50) ∧
    8 ≤ (create_diverse_sample 0 ["Normal"] nineNormalDf (some nineNormalIds)
        (some nineNormalGaze) (some nineNormalFix) 50).countP
      (fun r => flagVal r "Normal" == 1) :=
  ⟨⟨by decide, by decide, by decide, by decide, by decide, by decide⟩,
   primary_quota_at_least 0 ["Normal"] nineNormalDf (some nineNormalIds)
     (some nineNormalGaze) (some nineNormalFix) 50 "Normal" (by decide) (by decide)
     (by decide) (by decide) (by decide) (by decide)⟩

/-- C8 witness: the order-preservation theorem applied to concrete tables
and a concrete selected case. -/
theorem chunked_extraction_preserves_order_witness :
    ((["a"] : List String).contains "a" = true) ∧
    ((chunked_isin_filter GazeRow.dicom_id ["a"]
        [⟨"a", 0⟩, ⟨"b", 1⟩]).Sublist [⟨"a", 0⟩, ⟨"b", 1⟩] ∧
     (chunked_isin_filter FixRow.dicom_id ["a"] [⟨"a", 2⟩]).Sublist [⟨"a", 2⟩] ∧
     (chunked_isin_filter FixRow.dicom_id ["a"] [⟨"a", 2⟩]).filter
        (fun r => r.dicom_id == "a")
       = ([⟨"a", 2⟩] : List FixRow).filter (fun r => r.dicom_id == "a")) :=
  ⟨by decide, chunked_extraction_preserves_order ["a"] [⟨"a", 0⟩, ⟨"b", 1⟩]
      [⟨"a", 2⟩] "a" (by decide)⟩

end EGD
